import Mathlib

/-!
Verification of the stagecoach dynamic-programming solver
(`src/stagecoach_solver.py`, class `StagecoachProblem`).

The Python class owns a fixed staged topology over ten nodes `A`..`J`
(dict-of-dict `edges`), runs backward induction (`solve_backward_induction`)
filling the tables `cost_to_go` and `next_node`, and reconstructs the optimal
path (`_reconstruct_path`, `get_path_details`).  Mutators are
`set_edge_weight`, `set_random_weights`, `reset_to_default`.

Embedding conventions:
* node labels are an inductive type with the ten constructors of `all_nodes`;
* a Python dict keyed by nodes is an association list in insertion order
  (Python dicts preserve insertion order, which the tie-break depends on);
* `float('inf')` costs are `Option Int`, `none` standing for infinity
  (`addC`/`ltC` mirror `inf + w` and `<` on floats for integer weights);
* randomness is an explicit sample stream `ℕ → Int` handed to the model of
  `random.randint`, which fails exactly when `min > max` (Python ValueError);
* the unbounded `while` of `_reconstruct_path` is run with fuel strictly
  larger than the number of nodes; stabilisation is proved for the tables
  the solver actually produces.
-/

namespace Stagecoach

/-- Node labels, `self.all_nodes = ['A', ..., 'J']` of the source. -/
inductive Node : Type
  | A | B | C | D | E | F | G | H | I | J
deriving DecidableEq, Repr, Fintype

open Node

/-- `self.all_nodes` (source line 64). -/
def all_nodes : List Node := [A, B, C, D, E, F, G, H, I, J]

/-- `self.stages` (source lines 55-61): nodes of each stage tier. -/
def stages : List (ℕ × List Node) :=
  [(0, [A]), (1, [B, C, D]), (2, [E, F, G]), (3, [H, I]), (4, [J])]

/-- Stage tier of a node, read off the `stages` dict. -/
def stageOf : Node → ℕ
  | A => 0
  | B | C | D => 1
  | E | F | G => 2
  | H | I => 3
  | J => 4

/-- Inner dict of one node: its successors with edge weights, in insertion
order. -/
abbrev AdjList := List (Node × Int)

/-- The dict-of-dict `self.edges` / `self.default_edges` shape. -/
abbrev Edges := List (Node × AdjList)

/-- First-occurrence lookup in an association list (Python dict indexing /
`in` test; the dicts of the source have no duplicate keys). -/
def lookupN {α : Type} : Node → List (Node × α) → Option α
  | _, [] => none
  | k, (k', x) :: rest => if k' = k then some x else lookupN k rest

/-- `self.edges.get(u, {})` (source line 169). -/
def dictGet (es : Edges) (u : Node) : AdjList := (lookupN u es).getD []

/-- Weight of the edge `(u, v)` if present: `self.edges[u][v]`. -/
def lookup2 (es : Edges) (u v : Node) : Option Int := lookupN v (dictGet es u)

/-- `self.default_edges` (source lines 68-84). -/
def default_edges : Edges :=
  [ (A, [(B, 2), (C, 4), (D, 3)]),
    (B, [(E, 7), (F, 4)]),
    (C, [(E, 6), (F, 3), (G, 4)]),
    (D, [(F, 1), (G, 5)]),
    (E, [(H, 1), (I, 6)]),
    (F, [(H, 6), (I, 3)]),
    (G, [(H, 3), (I, 3)]),
    (H, [(J, 3)]),
    (I, [(J, 4)]),
    (J, []) ]

/-- `self._deep_copy_edges` (source lines 93-95): a fresh dict-of-dicts with
the same contents. -/
def _deep_copy_edges (es : Edges) : Edges := es.map (fun p => (p.1, p.2.map id))

/-- The `edges` attribute set by `__init__` (source line 87). -/
def init_edges : Edges := _deep_copy_edges default_edges

/-- `reset_to_default` (source lines 97-99); the argument is the current
`self.edges`, discarded by the full overwrite. -/
def reset_to_default (_es : Edges) : Edges := _deep_copy_edges default_edges

/-- The fixed topology with an arbitrary weight for each of its 18 edges:
`self.edges` after any sequence of weight mutations keeps exactly this shape.
`w` is only evaluated on the 18 ordered pairs that are edges. -/
def edgesW (w : Node → Node → Int) : Edges :=
  [ (A, [(B, w A B), (C, w A C), (D, w A D)]),
    (B, [(E, w B E), (F, w B F)]),
    (C, [(E, w C E), (F, w C F), (G, w C G)]),
    (D, [(F, w D F), (G, w D G)]),
    (E, [(H, w E H), (I, w E I)]),
    (F, [(H, w F H), (I, w F I)]),
    (G, [(H, w G H), (I, w G I)]),
    (H, [(J, w H J)]),
    (I, [(J, w I J)]),
    (J, []) ]

/-- The default weights as a weight function. -/
def defaultW : Node → Node → Int
  | A, B => 2 | A, C => 4 | A, D => 3
  | B, E => 7 | B, F => 4
  | C, E => 6 | C, F => 3 | C, G => 4
  | D, F => 1 | D, G => 5
  | E, H => 1 | E, I => 6
  | F, H => 6 | F, I => 3
  | G, H => 3 | G, I => 3
  | H, J => 3
  | I, J => 4
  | _, _ => 0

/-- `set_edge_weight` (source lines 113-123): updates the weight of `(f, t)`
if `f in self.edges and t in self.edges[f]`, otherwise does nothing. -/
def set_edge_weight (es : Edges) (from_node to_node : Node) (weight : Int) : Edges :=
  if (lookupN from_node es).isSome ∧ (lookup2 es from_node to_node).isSome then
    es.map (fun p =>
      if p.1 = from_node then
        (p.1, p.2.map (fun q => if q.1 = to_node then (q.1, weight) else q))
      else p)
  else es

/-- `random.randint(a, b)` with the sample it would draw made explicit:
raises `ValueError` exactly when the range is empty (`a > b`), otherwise
returns the sample (assumed in `[a, b]` where a theorem needs it). -/
def randint (a b sample : Int) : Except Unit Int :=
  if b < a then Except.error () else Except.ok sample

/-- Inner loop of `set_random_weights` over one adjacency dict, threading the
index into the sample stream.  On a `ValueError` the error payload is the
dict as it stands when the exception escapes (entries from the raising one on
keep their old weights). -/
def srwAdj (minV maxV : Int) (rand : ℕ → Int) : ℕ → AdjList → Except AdjList (AdjList × ℕ)
  | k, [] => Except.ok ([], k)
  | k, (v, w) :: rest =>
    match randint minV maxV (rand k) with
    | Except.error _ => Except.error ((v, w) :: rest)
    | Except.ok x =>
      match srwAdj minV maxV rand (k + 1) rest with
      | Except.error bad => Except.error ((v, x) :: bad)
      | Except.ok (rest', k') => Except.ok ((v, x) :: rest', k')

/-- Outer loop of `set_random_weights` over the node dict. -/
def srwNodes (minV maxV : Int) (rand : ℕ → Int) : ℕ → Edges → Except Edges Edges
  | _, [] => Except.ok []
  | k, (u, adj) :: rest =>
    match srwAdj minV maxV rand k adj with
    | Except.error adjBad => Except.error ((u, adjBad) :: rest)
    | Except.ok (adj', k') =>
      match srwNodes minV maxV rand k' rest with
      | Except.error bad => Except.error ((u, adj') :: bad)
      | Except.ok rest' => Except.ok ((u, adj') :: rest')

/-- `set_random_weights` (source lines 101-111): every edge weight is
replaced by a fresh `random.randint(minV, maxV)` sample, iterating the node
dict and each adjacency dict in order.  The `Except.error` case is the
`ValueError` escaping, its payload the (in fact untouched) edges. -/
def set_random_weights (minV maxV : Int) (rand : ℕ → Int) (es : Edges) : Except Edges Edges :=
  srwNodes minV maxV rand 0 es

/-- `float('inf') + w` on an integer weight: infinity is absorbing. -/
def addC (w : Int) : Option Int → Option Int
  | some c => some (w + c)
  | none => none

/-- `<` between a candidate cost and a stored cost, with `none` as
`float('inf')`: nothing is below infinity, every finite value is. -/
def ltC : Option Int → Option Int → Bool
  | some a, some b => a < b
  | some _, none => true
  | none, _ => false

/-- The two DP tables `self.cost_to_go` and `self.next_node`. -/
structure Tables where
  cost_to_go : Node → Option Int
  next_node : Node → Option Node

/-- Pointwise update of a table (dict assignment). -/
def updF {α : Type} (f : Node → α) (u : Node) (x : α) : Node → α :=
  fun n => if n = u then x else f n

/-- The inner loop of `solve_backward_induction` (source lines 172-179): for
each `(neighbor, transition_cost)` of the current node in dict order,
`total = transition_cost + cost_to_go[neighbor]`; on a strict improvement the
two tables are updated at the current node. -/
def relaxNode (u : Node) : List (Node × Int) → Tables → Tables
  | [], t => t
  | (v, w) :: rest, t =>
    if ltC (addC w (t.cost_to_go v)) (t.cost_to_go u) then
      relaxNode u rest
        ⟨updF t.cost_to_go u (addC w (t.cost_to_go v)), updF t.next_node u (some v)⟩
    else relaxNode u rest t

/-- Tables after steps 1-2 of `solve_backward_induction` (source lines
151-156): every cost infinite except `cost_to_go['J'] = 0`, no next links. -/
def init_tables : Tables :=
  ⟨fun n => if n = J then some 0 else none, fun _ => none⟩

/-- One iteration of the outer loop (source lines 163-179): `'J'` is
skipped, any other node is relaxed over `self.edges.get(u, {})`. -/
def solveStep (es : Edges) (t : Tables) (u : Node) : Tables :=
  if u = J then t else relaxNode u (dictGet es u) t

/-- Steps 1-4 of `solve_backward_induction`: fold the outer loop over
`nodes_reversed = list(reversed(self.all_nodes))` (source line 160). -/
def solve_tables (es : Edges) : Tables :=
  all_nodes.reverse.foldl (solveStep es) init_tables

/-- The `while current is not None` walk of `_reconstruct_path` (source lines
198-206), with explicit fuel: append the current node, follow
`next_node.get(current)`.  Fuel `0` truncates, standing for divergence. -/
def walk (next_node : Node → Option Node) : ℕ → Node → List Node
  | 0, _ => []
  | fuel + 1, u =>
    u :: (match next_node u with
          | none => []
          | some v => walk next_node fuel v)

/-- `_reconstruct_path`: walk from `'A'` with fuel exceeding the number of
nodes (enough for any stage-increasing table; stabilisation is proved for
the solver's tables). -/
def reconstruct_path (next_node : Node → Option Node) : List Node :=
  walk next_node (all_nodes.length + 1) A

/-- Step 5 and return of `solve_backward_induction` (source lines 182-184):
the pair `(cost_to_go['A'], reconstructed path)`. -/
def solve_backward_induction (es : Edges) : Option Int × List Node :=
  ((solve_tables es).cost_to_go A, reconstruct_path (solve_tables es).next_node)

/-- The loop of `get_path_details` (source lines 218-224) over an already
reconstructed path: one `(from, to, self.edges[from][to])` triple per
consecutive pair; a missing edge is the `KeyError` escaping (`none`). -/
def detailsGo (es : Edges) : List Node → Option (List (Node × Node × Int))
  | u :: v :: rest =>
    match lookup2 es u v with
    | none => none
    | some c => (detailsGo es (v :: rest)).map (fun l => (u, v, c) :: l)
  | _ => some []

/-- `get_path_details` (source lines 208-224): reconstructs the path from the
current `next_node` table and pairs it with edge weights. -/
def get_path_details (es : Edges) (next_node : Node → Option Node) :
    Option (List (Node × Node × Int)) :=
  detailsGo es (reconstruct_path next_node)

/-- The `next_node` attribute as `__init__` leaves it (source line 91): an
empty dict, so `next_node.get(u)` is `None` for every `u`. -/
def init_next : Node → Option Node := fun _ => none

/-! ### Specification-side helpers

Definitions below are not part of the source; they give names to the
quantities the claims talk about (minimum over candidates, first edge
achieving it, brute-force path enumeration), to be compared with the
solver. -/

/-- Minimum of two extended costs (`none` is infinity). -/
def minC : Option Int → Option Int → Option Int
  | none, b => b
  | some a, none => some a
  | some a, some b => some (min a b)

/-- Minimum over a neighbor list of `edge weight + successor cost`, read in
the table `c`; `none` (infinity) for an empty list. -/
def minCand (c : Node → Option Int) : List (Node × Int) → Option Int
  | [] => none
  | vw :: rest => minC (addC vw.2 (c vw.1)) (minCand c rest)

/-- The first neighbor, in enumeration order, whose candidate cost is `m`. -/
def firstAchiever (c : Node → Option Int) (l : List (Node × Int)) (m : Option Int) :
    Option Node :=
  (l.find? (fun vw => decide (addC vw.2 (c vw.1) = m))).map (fun vw => vw.1)

/-- The inner relaxation loop as a pure fold over the accumulator pair
`(cost of the current node, its next link)`, reading successor costs in a
frozen table `c`. -/
def accFold (c : Node → Option Int) :
    List (Node × Int) → Option Int × Option Node → Option Int × Option Node
  | [], a => a
  | vw :: rest, a =>
    accFold c rest
      (if ltC (addC vw.2 (c vw.1)) a.1 then (addC vw.2 (c vw.1), some vw.1) else a)

/-- Position of a node in `all_nodes` (processing is by decreasing index). -/
def idxOf : Node → ℕ
  | A => 0 | B => 1 | C => 2 | D => 3 | E => 4
  | F => 5 | G => 6 | H => 7 | I => 8 | J => 9

/-- Successor labels of each node in the fixed topology. -/
def targetsOf : Node → List Node
  | A => [B, C, D]
  | B => [E, F]
  | C => [E, F, G]
  | D => [F, G]
  | E => [H, I]
  | F => [H, I]
  | G => [H, I]
  | H => [J]
  | I => [J]
  | J => []

/-- The solver's tables on the fixed topology with weights `w`. -/
def solveW (w : Node → Node → Int) : Tables := solve_tables (edgesW w)

/-- All full source-to-sink paths out of `u` (spec side, claim C1): the empty
path set with fuel `0` unless at the sink, else every path of a successor
prefixed with `u`.  Independent of the weights. -/
def pathsFrom (es : Edges) : ℕ → Node → List (List Node)
  | 0, u => if u = J then [[J]] else []
  | fuel + 1, u =>
    if u = J then [[J]]
    else ((dictGet es u).map (fun vw => (pathsFrom es fuel vw.1).map (fun p => u :: p))).flatten

/-- All full `A`-to-`J` paths of a staged edge dict (fuel: number of nodes,
enough for any full path). -/
def all_full_paths (es : Edges) : List (List Node) := pathsFrom es all_nodes.length A

/-- Sum of the edge weights along a node sequence (spec side, claim C1). -/
def pathSum (w : Node → Node → Int) : List Node → Int
  | u :: v :: rest => w u v + pathSum w (v :: rest)
  | _ => 0

/-- Minimum of a list of integers as an extended cost (`none` iff empty). -/
def minL : List Int → Option Int
  | [] => none
  | x :: rest => minC (some x) (minL rest)

/-- Boolean check of claim C4: every consecutive pair of the node sequence is
an edge of the dict. -/
def consecEdges (es : Edges) : List Node → Bool
  | u :: v :: rest => (lookup2 es u v).isSome && consecEdges es (v :: rest)
  | _ => true

/-- Sum of the `edgeWeight` components of a `get_path_details` result. -/
def detailsSum (l : List (Node × Node × Int)) : Int := (l.map (fun d => d.2.2)).sum

/-- The edges produced by `set_random_weights` when no error occurs: the
sample stream read off in iteration order (claim C7). -/
def srwSample (rand : ℕ → Int) : Edges :=
  [ (A, [(B, rand 0), (C, rand 1), (D, rand 2)]),
    (B, [(E, rand 3), (F, rand 4)]),
    (C, [(E, rand 5), (F, rand 6), (G, rand 7)]),
    (D, [(F, rand 8), (G, rand 9)]),
    (E, [(H, rand 10), (I, rand 11)]),
    (F, [(H, rand 12), (I, rand 13)]),
    (G, [(H, rand 14), (I, rand 15)]),
    (H, [(J, rand 16)]),
    (I, [(J, rand 17)]),
    (J, []) ]

/-! ### Basic facts about extended costs -/

theorem ltC_irrefl (x : Option Int) : ltC x x = false := by
  cases x <;> simp [ltC]

theorem ltC_trans {x y z : Option Int} (h1 : ltC x y = true) (h2 : ltC y z = true) :
    ltC x z = true := by
  cases x <;> cases y <;> cases z <;> simp_all [ltC] <;> omega

theorem ltC_of_ltC_of_not {x y z : Option Int} (h1 : ltC x z = true)
    (h2 : ltC y z = false) : ltC x y = true := by
  cases x <;> cases y <;> cases z <;> simp_all [ltC] <;> omega

theorem ltC_ne {x y : Option Int} (h : ltC x y = true) : x ≠ y := by
  cases x <;> cases y <;> simp_all [ltC] <;> omega

theorem minC_eq_right {x y : Option Int} (h : ltC y x = true) : minC x y = y := by
  cases x <;> cases y <;> simp_all [ltC, minC] <;> omega

theorem minC_eq_left {x y : Option Int} (h : ltC y x = false) : minC x y = x := by
  cases x <;> cases y <;> simp_all [ltC, minC] <;> omega

theorem ltC_minC_right {x y z : Option Int} (h : ltC x z = false) :
    ltC (minC x y) z = ltC y z := by
  cases x <;> cases y <;> cases z <;> simp_all [ltC, minC] <;> omega

/-- The inner relaxation fold computes the minimum candidate and, when it
improves on the accumulator, the first neighbor achieving it. -/
theorem accFold_char (c : Node → Option Int) (l : List (Node × Int)) :
    ∀ a : Option Int × Option Node,
      accFold c l a =
        if ltC (minCand c l) a.1 then
          (minCand c l, firstAchiever c l (minCand c l))
        else a := by
  induction l with
  | nil => intro a; simp [accFold, minCand, ltC]
  | cons vw rest ih =>
    intro a
    rw [accFold]
    by_cases h1 : ltC (addC vw.2 (c vw.1)) a.1 = true
    · rw [if_pos h1, ih]
      by_cases h2 : ltC (minCand c rest) (addC vw.2 (c vw.1)) = true
      · have hmin : minCand c (vw :: rest) = minCand c rest := by
          rw [minCand, minC_eq_right h2]
        have hlt : ltC (minCand c (vw :: rest)) a.1 = true := by
          rw [hmin]; exact ltC_trans h2 h1
        rw [if_pos h2, if_pos hlt, hmin]
        have hne : addC vw.2 (c vw.1) ≠ minCand c rest :=
          fun he => (ltC_ne h2) he.symm
        have hfa : firstAchiever c (vw :: rest) (minCand c rest)
            = firstAchiever c rest (minCand c rest) := by
          rw [firstAchiever, firstAchiever, List.find?_cons_of_neg]
          simpa using hne
        rw [hfa]
      · have h2f : ltC (minCand c rest) (addC vw.2 (c vw.1)) = false :=
          Bool.eq_false_iff.mpr h2
        have hmin : minCand c (vw :: rest) = addC vw.2 (c vw.1) := by
          rw [minCand, minC_eq_left h2f]
        have hlt : ltC (minCand c (vw :: rest)) a.1 = true := by rw [hmin]; exact h1
        rw [if_neg h2, if_pos hlt, hmin]
        have hfa : firstAchiever c (vw :: rest) (addC vw.2 (c vw.1)) = some vw.1 := by
          rw [firstAchiever, List.find?_cons_of_pos] <;> simp
        rw [hfa]
    · have h1f : ltC (addC vw.2 (c vw.1)) a.1 = false := Bool.eq_false_iff.mpr h1
      rw [if_neg h1, ih]
      have hco : ltC (minCand c (vw :: rest)) a.1 = ltC (minCand c rest) a.1 := by
        rw [minCand]; exact ltC_minC_right h1f
      by_cases h2 : ltC (minCand c rest) a.1 = true
      · have hlt : ltC (minCand c (vw :: rest)) a.1 = true := by rw [hco]; exact h2
        rw [if_pos h2, if_pos hlt]
        have hmin : minCand c (vw :: rest) = minCand c rest := by
          rw [minCand]
          exact minC_eq_right (ltC_of_ltC_of_not h2 h1f)
        rw [hmin]
        have hne : addC vw.2 (c vw.1) ≠ minCand c rest := by
          intro he
          exact (ltC_ne (ltC_of_ltC_of_not h2 h1f)) he.symm
        have hfa : firstAchiever c (vw :: rest) (minCand c rest)
            = firstAchiever c rest (minCand c rest) := by
          rw [firstAchiever, firstAchiever, List.find?_cons_of_neg]
          simpa using hne
        rw [hfa]
      · have h2f : ltC (minCand c rest) a.1 = false := Bool.eq_false_iff.mpr h2
        rw [if_neg h2, if_neg (by rw [hco]; simp [h2f])]

/-- `accFold` only reads the table at the neighbors of the list. -/
theorem accFold_congr {c1 c2 : Node → Option Int} :
    ∀ (l : List (Node × Int)), (∀ vw ∈ l, c1 vw.1 = c2 vw.1) →
      ∀ a, accFold c1 l a = accFold c2 l a := by
  intro l
  induction l with
  | nil => intro _ a; rfl
  | cons vw rest ih =>
    intro h a
    rw [accFold, accFold, h vw (List.mem_cons_self vw rest)]
    exact ih (fun x hx => h x (List.mem_cons_of_mem vw hx)) _

/-- The relaxation of a node leaves both tables untouched elsewhere. -/
theorem relaxNode_other (u : Node) :
    ∀ (l : List (Node × Int)) (t : Tables) (x : Node), x ≠ u →
      (relaxNode u l t).cost_to_go x = t.cost_to_go x ∧
      (relaxNode u l t).next_node x = t.next_node x := by
  intro l
  induction l with
  | nil => intro t x _; exact ⟨rfl, rfl⟩
  | cons vw rest ih =>
    intro t x hx
    rw [relaxNode]
    by_cases h : ltC (addC vw.2 (t.cost_to_go vw.1)) (t.cost_to_go u) = true
    · rw [if_pos h]
      have h2 := ih ⟨updF t.cost_to_go u (addC vw.2 (t.cost_to_go vw.1)),
        updF t.next_node u (some vw.1)⟩ x hx
      rw [h2.1, h2.2]
      simp [updF, hx]
    · rw [if_neg h]
      exact ih t x hx

/-- When the current node is not among its own neighbors (always true in the
staged topology), the destructive inner loop computes `accFold` on the
frozen table. -/
theorem relaxNode_self (u : Node) :
    ∀ (l : List (Node × Int)) (t : Tables), (∀ vw ∈ l, vw.1 ≠ u) →
      ((relaxNode u l t).cost_to_go u, (relaxNode u l t).next_node u)
        = accFold t.cost_to_go l (t.cost_to_go u, t.next_node u) := by
  intro l
  induction l with
  | nil => intro t _; rfl
  | cons vw rest ih =>
    intro t h
    have hv : vw.1 ≠ u := h vw (List.mem_cons_self vw rest)
    have hrest : ∀ x ∈ rest, x.1 ≠ u := fun x hx => h x (List.mem_cons_of_mem vw hx)
    rw [relaxNode, accFold]
    by_cases hc : ltC (addC vw.2 (t.cost_to_go vw.1)) (t.cost_to_go u) = true
    · rw [if_pos hc, if_pos hc]
      set t' : Tables := ⟨updF t.cost_to_go u (addC vw.2 (t.cost_to_go vw.1)),
        updF t.next_node u (some vw.1)⟩ with ht'
      have hcongr : ∀ x ∈ rest, t'.cost_to_go x.1 = t.cost_to_go x.1 := by
        intro x hx
        simp [ht', updF, hrest x hx]
      rw [ih t' hrest, accFold_congr rest hcongr]
      have e1 : t'.cost_to_go u = addC vw.2 (t.cost_to_go vw.1) := by simp [ht', updF]
      have e2 : t'.next_node u = some vw.1 := by simp [ht', updF]
      rw [e1, e2]
    · rw [if_neg hc, if_neg hc]
      exact ih t hrest

/-- Outer-loop characterization: folding `solveStep` over a list of nodes of
strictly decreasing `all_nodes` index, each of whose successors lies strictly
later in `all_nodes`, (a) leaves nodes outside the list, and `J`, untouched,
and (b) gives every processed non-`J` node the `accFold` of its neighbor list
read in the final table. -/
theorem foldl_char (es : Edges) :
    ∀ (L : List Node) (t : Tables),
      L.Pairwise (fun a b => idxOf b < idxOf a) →
      (∀ u ∈ L, u ≠ J → ∀ vw ∈ dictGet es u, idxOf u < idxOf vw.1) →
      (∀ x, (x ∉ L ∨ x = J) →
        (L.foldl (solveStep es) t).cost_to_go x = t.cost_to_go x ∧
        (L.foldl (solveStep es) t).next_node x = t.next_node x) ∧
      (∀ x ∈ L, x ≠ J →
        ((L.foldl (solveStep es) t).cost_to_go x, (L.foldl (solveStep es) t).next_node x)
          = accFold (L.foldl (solveStep es) t).cost_to_go (dictGet es x)
              (t.cost_to_go x, t.next_node x)) := by
  intro L
  induction L with
  | nil => exact fun t _ _ => ⟨fun x _ => ⟨rfl, rfl⟩, fun x hx => absurd hx (by simp)⟩
  | cons u rest ih =>
    intro t hpair htarg
    have hu : ∀ b ∈ rest, idxOf b < idxOf u := (List.pairwise_cons.mp hpair).1
    have hpr : rest.Pairwise (fun a b => idxOf b < idxOf a) :=
      (List.pairwise_cons.mp hpair).2
    have htr : ∀ x ∈ rest, x ≠ J → ∀ vw ∈ dictGet es x, idxOf x < idxOf vw.1 :=
      fun x hx => htarg x (List.mem_cons_of_mem u hx)
    have hfold : (u :: rest).foldl (solveStep es) t
        = rest.foldl (solveStep es) (solveStep es t u) := rfl
    obtain ⟨ih1, ih2⟩ := ih (solveStep es t u) hpr htr
    have hstep_other : ∀ x, x ≠ u →
        (solveStep es t u).cost_to_go x = t.cost_to_go x ∧
        (solveStep es t u).next_node x = t.next_node x := by
      intro x hx
      rw [solveStep]
      by_cases hj : u = J
      · rw [if_pos hj]; exact ⟨rfl, rfl⟩
      · rw [if_neg hj]; exact relaxNode_other u (dictGet es u) t x hx
    have bullet1 : ∀ x, (x ∉ u :: rest ∨ x = J) →
        ((u :: rest).foldl (solveStep es) t).cost_to_go x = t.cost_to_go x ∧
        ((u :: rest).foldl (solveStep es) t).next_node x = t.next_node x := by
      intro x hx
      rw [hfold]
      have hx' : x ∉ rest ∨ x = J := by
        rcases hx with hx | hx
        · exact Or.inl (fun hmem => hx (List.mem_cons_of_mem u hmem))
        · exact Or.inr hx
      have h1 := ih1 x hx'
      by_cases hxu : x = u
      · rcases hx with hx | hx
        · exact absurd (hxu ▸ List.mem_cons_self u rest) hx
        · have hstep : solveStep es t u = t := by rw [solveStep, if_pos (hxu ▸ hx)]
          rw [h1.1, h1.2, hstep]
          exact ⟨rfl, rfl⟩
      · obtain ⟨e1, e2⟩ := hstep_other x hxu
        rw [h1.1, h1.2, e1, e2]
        exact ⟨rfl, rfl⟩
    refine ⟨bullet1, ?_⟩
    intro x hx hxj
    rcases List.mem_cons.mp hx with hxu | hxr
    · subst hxu
      have hxnr : x ∉ rest := fun hmem => lt_irrefl _ (hu x hmem)
      have htx : ∀ vw ∈ dictGet es x, idxOf x < idxOf vw.1 :=
        htarg x (List.mem_cons_self x rest) hxj
      have htne : ∀ vw ∈ dictGet es x, vw.1 ≠ x := by
        intro vw hvw he
        exact lt_irrefl _ (he ▸ htx vw hvw)
      have hstep : solveStep es t x = relaxNode x (dictGet es x) t := by
        rw [solveStep, if_neg hxj]
      have h1 := ih1 x (Or.inl hxnr)
      rw [hfold, h1.1, h1.2, hstep]
      rw [relaxNode_self x (dictGet es x) t htne]
      have hagree : ∀ vw ∈ dictGet es x,
          (rest.foldl (solveStep es) (solveStep es t x)).cost_to_go vw.1
            = t.cost_to_go vw.1 := by
        intro vw hvw
        have hidx := htx vw hvw
        have hnm : vw.1 ∉ x :: rest := by
          intro hmem
          rcases List.mem_cons.mp hmem with he | hmem'
          · exact lt_irrefl _ (he ▸ hidx)
          · exact lt_irrefl _ (lt_trans hidx (hu vw.1 hmem'))
        have hb := (bullet1 vw.1 (Or.inl hnm)).1
        rw [hfold] at hb
        exact hb
      rw [hstep] at hagree
      exact (accFold_congr (dictGet es x) hagree _).symm
    · have hxu : x ≠ u := fun he => lt_irrefl _ (he ▸ hu x hxr)
      obtain ⟨e1, e2⟩ := hstep_other x hxu
      have h2 := ih2 x hxr hxj
      rw [hfold, h2, e1, e2]

/-- Every stored neighbor is one of the fixed successor labels. -/
theorem mem_dictGet_edgesW (w : Node → Node → Int) (u : Node) (vw : Node × Int)
    (h : vw ∈ dictGet (edgesW w) u) : vw.1 ∈ targetsOf u := by
  cases u <;> simp [dictGet, edgesW, lookupN] at h <;>
    rcases h with rfl | rfl | rfl <;> simp [targetsOf]

theorem targets_idx : ∀ u v : Node, v ∈ targetsOf u → idxOf u < idxOf v := by decide

theorem targets_stage : ∀ u v : Node, v ∈ targetsOf u → stageOf u < stageOf v := by decide

/-- The solver's final tables on the fixed topology: the sink keeps cost `0`
and no link; every other node carries the `accFold` of its neighbor list,
candidates read in the final table itself. -/
theorem solveW_char (w : Node → Node → Int) :
    ((solveW w).cost_to_go J = some 0 ∧ (solveW w).next_node J = none) ∧
    ∀ x, x ≠ J →
      ((solveW w).cost_to_go x, (solveW w).next_node x)
        = accFold (solveW w).cost_to_go (dictGet (edgesW w) x) (none, none) := by
  have hpair : ([J, I, H, G, F, E, D, C, B, A] : List Node).Pairwise
      (fun a b => idxOf b < idxOf a) := by decide
  have hrev : all_nodes.reverse = [J, I, H, G, F, E, D, C, B, A] := rfl
  have htarg : ∀ u ∈ ([J, I, H, G, F, E, D, C, B, A] : List Node), u ≠ J →
      ∀ vw ∈ dictGet (edgesW w) u, idxOf u < idxOf vw.1 := by
    intro u _ _ vw hvw
    exact targets_idx u vw.1 (mem_dictGet_edgesW w u vw hvw)
  have h := foldl_char (edgesW w) [J, I, H, G, F, E, D, C, B, A] init_tables hpair htarg
  have hsolve : solveW w
      = ([J, I, H, G, F, E, D, C, B, A] : List Node).foldl (solveStep (edgesW w)) init_tables := by
    rw [solveW, solve_tables, hrev]
  constructor
  · have hJ := h.1 J (Or.inr rfl)
    rw [hsolve, hJ.1, hJ.2]
    exact ⟨rfl, rfl⟩
  · intro x hx
    have hmem : x ∈ ([J, I, H, G, F, E, D, C, B, A] : List Node) := by cases x <;> simp
    have h2 := h.2 x hmem hx
    have hc : init_tables.cost_to_go x = none := by simp [init_tables, hx]
    have hn : init_tables.next_node x = none := rfl
    rw [hsolve, h2, hc, hn]

/-- Bellman fixpoint for the cost table: away from the sink, the cost is the
minimum candidate over the node's neighbor list. -/
theorem solveW_cost (w : Node → Node → Int) (x : Node) (hx : x ≠ J) :
    (solveW w).cost_to_go x = minCand (solveW w).cost_to_go (dictGet (edgesW w) x) := by
  have h := ((solveW_char w).2 x hx)
  rw [accFold_char] at h
  by_cases hm : ltC (minCand (solveW w).cost_to_go (dictGet (edgesW w) x)) none = true
  · rw [if_pos hm] at h
    exact congrArg Prod.fst h
  · rw [if_neg hm] at h
    have : minCand (solveW w).cost_to_go (dictGet (edgesW w) x) = none := by
      rcases he : minCand (solveW w).cost_to_go (dictGet (edgesW w) x) with _ | m
      · rfl
      · rw [he] at hm
        exact absurd rfl hm
    rw [this]
    exact congrArg Prod.fst h

/-- The next link of a non-sink node whose minimum candidate is finite is the
first neighbor achieving that minimum. -/
theorem solveW_next (w : Node → Node → Int) (x : Node) (hx : x ≠ J) (m : Int)
    (hm : minCand (solveW w).cost_to_go (dictGet (edgesW w) x) = some m) :
    (solveW w).next_node x
      = firstAchiever (solveW w).cost_to_go (dictGet (edgesW w) x) (some m) := by
  have h := ((solveW_char w).2 x hx)
  rw [accFold_char, hm] at h
  rw [if_pos (by rw [ltC] : ltC (some m) none = true)] at h
  exact congrArg Prod.snd h

/-! ### Closed forms of the final cost table on the fixed topology -/

theorem cost_J (w : Node → Node → Int) : (solveW w).cost_to_go J = some 0 :=
  (solveW_char w).1.1

theorem next_J (w : Node → Node → Int) : (solveW w).next_node J = none :=
  (solveW_char w).1.2

theorem cost_H (w : Node → Node → Int) : (solveW w).cost_to_go H = some (w H J) := by
  rw [solveW_cost w H (by decide)]
  simp [dictGet, edgesW, lookupN, minCand, minC, addC, cost_J w]

theorem cost_I (w : Node → Node → Int) : (solveW w).cost_to_go I = some (w I J) := by
  rw [solveW_cost w I (by decide)]
  simp [dictGet, edgesW, lookupN, minCand, minC, addC, cost_J w]

theorem cost_E (w : Node → Node → Int) :
    (solveW w).cost_to_go E = some (min (w E H + w H J) (w E I + w I J)) := by
  rw [solveW_cost w E (by decide)]
  simp [dictGet, edgesW, lookupN, minCand, minC, addC, cost_H w, cost_I w]

theorem cost_F (w : Node → Node → Int) :
    (solveW w).cost_to_go F = some (min (w F H + w H J) (w F I + w I J)) := by
  rw [solveW_cost w F (by decide)]
  simp [dictGet, edgesW, lookupN, minCand, minC, addC, cost_H w, cost_I w]

theorem cost_G (w : Node → Node → Int) :
    (solveW w).cost_to_go G = some (min (w G H + w H J) (w G I + w I J)) := by
  rw [solveW_cost w G (by decide)]
  simp [dictGet, edgesW, lookupN, minCand, minC, addC, cost_H w, cost_I w]

theorem cost_B (w : Node → Node → Int) :
    (solveW w).cost_to_go B
      = some (min (w B E + min (w E H + w H J) (w E I + w I J))
                  (w B F + min (w F H + w H J) (w F I + w I J))) := by
  rw [solveW_cost w B (by decide)]
  simp [dictGet, edgesW, lookupN, minCand, minC, addC, cost_E w, cost_F w]

theorem cost_C (w : Node → Node → Int) :
    (solveW w).cost_to_go C
      = some (min (w C E + min (w E H + w H J) (w E I + w I J))
             (min (w C F + min (w F H + w H J) (w F I + w I J))
                  (w C G + min (w G H + w H J) (w G I + w I J)))) := by
  rw [solveW_cost w C (by decide)]
  simp [dictGet, edgesW, lookupN, minCand, minC, addC, cost_E w, cost_F w, cost_G w]

theorem cost_D (w : Node → Node → Int) :
    (solveW w).cost_to_go D
      = some (min (w D F + min (w F H + w H J) (w F I + w I J))
                  (w D G + min (w G H + w H J) (w G I + w I J))) := by
  rw [solveW_cost w D (by decide)]
  simp [dictGet, edgesW, lookupN, minCand, minC, addC, cost_F w, cost_G w]

theorem cost_A (w : Node → Node → Int) :
    (solveW w).cost_to_go A
      = some (min (w A B + min (w B E + min (w E H + w H J) (w E I + w I J))
                              (w B F + min (w F H + w H J) (w F I + w I J)))
             (min (w A C + min (w C E + min (w E H + w H J) (w E I + w I J))
                          (min (w C F + min (w F H + w H J) (w F I + w I J))
                               (w C G + min (w G H + w H J) (w G I + w I J))))
                  (w A D + min (w D F + min (w F H + w H J) (w F I + w I J))
                               (w D G + min (w G H + w H J) (w G I + w I J))))) := by
  rw [solveW_cost w A (by decide)]
  simp [dictGet, edgesW, lookupN, minCand, minC, addC, cost_B w, cost_C w, cost_D w]

/-- Distributing an addition over a binary minimum. -/
theorem addMinDist (a b c : Int) : a + min b c = min (a + b) (a + c) := by omega

set_option maxHeartbeats 1000000 in
/-- The 14 full `A`-to-`J` paths of the fixed topology, in enumeration
order (the weights play no role in the enumeration). -/
theorem paths_A (w : Node → Node → Int) :
    all_full_paths (edgesW w) =
      [[A, B, E, H, J], [A, B, E, I, J], [A, B, F, H, J], [A, B, F, I, J],
       [A, C, E, H, J], [A, C, E, I, J], [A, C, F, H, J], [A, C, F, I, J],
       [A, C, G, H, J], [A, C, G, I, J],
       [A, D, F, H, J], [A, D, F, I, J], [A, D, G, H, J], [A, D, G, I, J]] := rfl

/-- Backward induction against brute force over integer weights: the cost the
solver reports at `A` is the minimum path sum over all 14 full paths. -/
theorem brute_eq (w : Node → Node → Int) :
    (solve_backward_induction (edgesW w)).1
      = minL ((all_full_paths (edgesW w)).map (pathSum w)) := by
  have h1 : (solve_backward_induction (edgesW w)).1 = (solveW w).cost_to_go A := rfl
  rw [h1, cost_A w, paths_A w]
  simp only [List.map_cons, List.map_nil, pathSum, minL, minC, add_zero, Option.some.injEq]
  simp only [addMinDist, min_assoc]

/-- A finite minimum candidate is achieved by some neighbor. -/
theorem minCand_achieved (c : Node → Option Int) :
    ∀ (l : List (Node × Int)) (m : Int), minCand c l = some m →
      ∃ vw ∈ l, addC vw.2 (c vw.1) = some m := by
  intro l
  induction l with
  | nil => intro m hm; exact absurd hm (by simp [minCand])
  | cons vw rest ih =>
    intro m hm
    rw [minCand] at hm
    rcases ha : addC vw.2 (c vw.1) with _ | a
    · rw [ha] at hm
      have : minCand c rest = some m := by
        rcases hr : minCand c rest with _ | b <;> rw [hr] at hm <;> simpa [minC] using hm
      obtain ⟨x, hx, he⟩ := ih m this
      exact ⟨x, List.mem_cons_of_mem vw hx, he⟩
    · rw [ha] at hm
      rcases hr : minCand c rest with _ | b
      · rw [hr] at hm
        exact ⟨vw, List.mem_cons_self vw rest, by rw [ha]; simpa [minC] using hm⟩
      · rw [hr] at hm
        have hmin : min a b = m := by simpa [minC] using hm
        rcases le_total a b with hab | hab
        · refine ⟨vw, List.mem_cons_self vw rest, ?_⟩
          rw [ha]
          have : a = m := by omega
          rw [this]
        · have : b = m := by omega
          obtain ⟨x, hx, he⟩ := ih m (by rw [hr, this])
          exact ⟨x, List.mem_cons_of_mem vw hx, he⟩

/-- Soundness of the chosen link: it points at a stored neighbor whose
candidate equals the node's final cost. -/
theorem next_sound (w : Node → Node → Int) (x : Node) (hx : x ≠ J) (v : Node)
    (h : (solveW w).next_node x = some v) :
    ∃ wv, (v, wv) ∈ dictGet (edgesW w) x ∧
      addC wv ((solveW w).cost_to_go v) = (solveW w).cost_to_go x := by
  rcases hm : minCand (solveW w).cost_to_go (dictGet (edgesW w) x) with _ | m
  · have hpair := (solveW_char w).2 x hx
    rw [accFold_char, hm] at hpair
    rw [if_neg (by simp [ltC])] at hpair
    have h2 : (solveW w).next_node x = none := congrArg Prod.snd hpair
    rw [h2] at h
    exact absurd h (by simp)
  · rw [solveW_next w x hx m hm] at h
    rw [firstAchiever] at h
    obtain ⟨vw, hfind, hv⟩ := Option.map_eq_some'.mp h
    have hp := List.find?_some hfind
    have hmem := List.mem_of_find?_eq_some hfind
    refine ⟨vw.2, ?_, ?_⟩
    · rw [← hv]
      exact hmem
    · rw [← hv]
      have : addC vw.2 ((solveW w).cost_to_go vw.1) = some m := by simpa using hp
      rw [this, solveW_cost w x hx, hm]

/-- Completeness of the chosen link: a finite final cost forces a link. -/
theorem next_total (w : Node → Node → Int) (x : Node) (hx : x ≠ J) (m : Int)
    (h : (solveW w).cost_to_go x = some m) :
    ∃ v, (solveW w).next_node x = some v := by
  have hm : minCand (solveW w).cost_to_go (dictGet (edgesW w) x) = some m := by
    rw [← solveW_cost w x hx]; exact h
  obtain ⟨vw, hmem, he⟩ := minCand_achieved _ _ _ hm
  rw [solveW_next w x hx m hm, firstAchiever]
  have : (List.find? (fun vw => decide (addC vw.2 ((solveW w).cost_to_go vw.1) = some m))
      (dictGet (edgesW w) x)).isSome = true := by
    rw [List.find?_isSome]
    exact ⟨vw, hmem, by simpa using he⟩
  obtain ⟨y, hy⟩ := Option.isSome_iff_exists.mp this
  exact ⟨y.1, by rw [hy]; rfl⟩

/-- Weight stored for a neighbor of the fixed topology. -/
theorem lookup2_of_mem (w : Node → Node → Int) (u v : Node) (x : Int)
    (h : (v, x) ∈ dictGet (edgesW w) u) : lookup2 (edgesW w) u v = some x := by
  cases u <;> simp [dictGet, edgesW, lookupN, lookup2] at h ⊢ <;>
    (try rcases h with ⟨rfl, rfl⟩ | ⟨rfl, rfl⟩ | ⟨rfl, rfl⟩) <;>
    (try rcases h with ⟨rfl, rfl⟩ | ⟨rfl, rfl⟩) <;>
    (try rcases h with ⟨rfl, rfl⟩) <;>
    simp_all [lookupN]

theorem stage_le : ∀ u : Node, stageOf u ≤ 4 := by decide

/-- Every link the solver records climbs to a strictly later stage. -/
theorem stage_next (w : Node → Node → Int) (u v : Node)
    (h : (solveW w).next_node u = some v) : stageOf u < stageOf v := by
  by_cases hu : u = J
  · subst hu
    rw [next_J w] at h
    exact absurd h (by simp)
  · obtain ⟨wv, hmem, _⟩ := next_sound w u hu v h
    exact targets_stage u v (mem_dictGet_edgesW w u (v, wv) hmem)

/-- The reconstruction walk is insensitive to one more unit of fuel once the
fuel covers the remaining stages. -/
theorem walk_succ (nxt : Node → Option Node)
    (hst : ∀ x y, nxt x = some y → stageOf x < stageOf y) :
    ∀ k u, 5 - stageOf u ≤ k → walk nxt k u = walk nxt (k + 1) u := by
  intro k
  induction k with
  | zero =>
    intro u hu
    have := stage_le u
    omega
  | succ k ih =>
    intro u hu
    cases hn : nxt u with
    | none => simp [walk, hn]
    | some v =>
      have hs := hst u v hn
      have hv4 := stage_le v
      have e1 : walk nxt (k + 1) u = u :: walk nxt k v := by rw [walk, hn]
      have e2 : walk nxt (k + 1 + 1) u = u :: walk nxt (k + 1) v := by rw [walk, hn]
      rw [e1, e2, ih v (by omega)]

/-- The reconstruction walk is insensitive to any extra fuel once the fuel
covers the remaining stages. -/
theorem walk_add (nxt : Node → Option Node)
    (hst : ∀ x y, nxt x = some y → stageOf x < stageOf y) :
    ∀ d k u, 5 - stageOf u ≤ k → walk nxt k u = walk nxt (k + d) u := by
  intro d
  induction d with
  | zero => intro k u _; rfl
  | succ d ih =>
    intro k u hu
    rw [ih k u hu, walk_succ nxt hst (k + d) u (le_trans hu (Nat.le_add_right k d))]
    rfl

theorem stage4 : ∀ u : Node, 4 ≤ stageOf u → u = J := by decide

/-- Telescoping along the reconstruction walk: a node with finite final cost
`c` yields a details list summing exactly to `c`, with enough fuel for the
remaining stages. -/
theorem detail_sum (w : Node → Node → Int) :
    ∀ (m : ℕ) (u : Node) (c : Int), 4 - stageOf u ≤ m →
      (solveW w).cost_to_go u = some c →
      ∃ l, detailsGo (edgesW w) (walk (solveW w).next_node (m + 1) u) = some l ∧
        detailsSum l = c := by
  intro m
  induction m with
  | zero =>
    intro u c hm hc
    have hj : u = J := stage4 u (by omega)
    subst hj
    have hc0 : c = 0 := by
      rw [cost_J w] at hc
      exact (Option.some.inj hc).symm
    have hw : walk (solveW w).next_node 1 J = [J] := by rw [walk, next_J w]
    refine ⟨[], ?_, by simp [detailsSum, hc0]⟩
    rw [hw]
    rfl
  | succ m ih =>
    intro u c hm hc
    by_cases hj : u = J
    · subst hj
      have hc0 : c = 0 := by
        rw [cost_J w] at hc
        exact (Option.some.inj hc).symm
      have hw : walk (solveW w).next_node (m + 1 + 1) J = [J] := by rw [walk, next_J w]
      refine ⟨[], ?_, by simp [detailsSum, hc0]⟩
      rw [hw]
      rfl
    · obtain ⟨v, hv⟩ := next_total w u hj c hc
      obtain ⟨wv, hmem, hadd⟩ := next_sound w u hj v hv
      rcases hcv : (solveW w).cost_to_go v with _ | cv
      · rw [hcv, hc] at hadd
        exact absurd hadd (by simp [addC])
      · rw [hcv, hc] at hadd
        have hcwv : wv + cv = c := by simpa [addC] using hadd
        have hsv := stage_next w u v hv
        have hv4 := stage_le v
        obtain ⟨l, hl, hsum⟩ := ih v cv (by omega) hcv
        have e1 : walk (solveW w).next_node (m + 1 + 1) u
            = u :: walk (solveW w).next_node (m + 1) v := by rw [walk, hv]
        have e2 : walk (solveW w).next_node (m + 1) v
            = v :: (match (solveW w).next_node v with
                    | none => []
                    | some y => walk (solveW w).next_node m y) := by rw [walk]
        have e3 : detailsGo (edgesW w) (u :: walk (solveW w).next_node (m + 1) v)
            = (detailsGo (edgesW w) (walk (solveW w).next_node (m + 1) v)).map
                (fun l => (u, v, wv) :: l) := by
          rw [e2, detailsGo, lookup2_of_mem w u v wv hmem]
        refine ⟨(u, v, wv) :: l, ?_, ?_⟩
        · rw [e1, e3, hl]
          rfl
        · simp [detailsSum] at hsum ⊢
          omega

/-- A successful details computation certifies every consecutive pair. -/
theorem detailsGo_consec (es : Edges) :
    ∀ (p : List Node) (l : List (Node × Node × Int)),
      detailsGo es p = some l → consecEdges es p = true := by
  intro p
  induction p with
  | nil => intro l _; rfl
  | cons u rest ih =>
    intro l h
    cases rest with
    | nil => rfl
    | cons v rest2 =>
      rw [detailsGo] at h
      rcases hlk : lookup2 es u v with _ | c
      · rw [hlk] at h
        exact absurd h (by simp)
      · rw [hlk] at h
        simp only [Option.map_eq_some'] at h
        obtain ⟨l2, hl2, _⟩ := h
        simp [consecEdges, hlk, ih l2 hl2]

/-- C1: for every assignment of non-negative integer edge weights to the
fixed staged topology, the minimum cost returned by
`solve_backward_induction` equals the minimum, over all full `A`-to-`J`
paths, of the sum of the edge weights along that path. -/
theorem claim_C1 (w : Node → Node → ℕ) :
    (solve_backward_induction (edgesW (fun u v => (w u v : Int)))).1
      = minL ((all_full_paths (edgesW (fun u v => (w u v : Int)))).map
          (pathSum (fun u v => (w u v : Int)))) :=
  brute_eq (fun u v => (w u v : Int))

/-- C2 (counterexample): on the constructor's default edges, `solve` does not
return minimum cost `9` with path `[A, D, F, I, J]`; the reported minimum
cost is `11`, not `9`. -/
theorem claim_C2_counterexample :
    solve_backward_induction init_edges ≠ (some 9, [A, D, F, I, J]) := by decide

/-- C2 (amended): on the constructor's default edges, `solve` returns
minimum cost `11` and path `[A, D, F, I, J]`. -/
theorem claim_C2 :
    solve_backward_induction init_edges = (some 11, [A, D, F, I, J]) := by decide

/-- C3: after every solve on the fixed topology (with any weights), the
sink's cost is exactly `0`, and every other node's cost is the minimum over
its outgoing edges of edge weight plus successor cost (`minCand`, which is
`none`, i.e. infinity, for a node without outgoing edges). -/
theorem claim_C3 (w : Node → Node → Int) (u : Node) :
    (solveW w).cost_to_go u
      = if u = J then some 0
        else minCand (solveW w).cost_to_go (dictGet (edgesW w) u) := by
  by_cases hu : u = J
  · subst hu
    rw [if_pos rfl, cost_J w]
  · rw [if_neg hu]
    exact solveW_cost w u hu

/-- C4: for every weight assignment, every consecutive pair of the returned
path is an edge of the topology, and the `get_path_details` weights sum to
the returned minimum cost. -/
theorem claim_C4 (w : Node → Node → Int) :
    consecEdges (edgesW w) (solve_backward_induction (edgesW w)).2 = true ∧
    (get_path_details (edgesW w) (solveW w).next_node).map detailsSum
      = (solve_backward_induction (edgesW w)).1 := by
  obtain ⟨cV, hcV⟩ : ∃ cV, (solveW w).cost_to_go A = some cV := ⟨_, cost_A w⟩
  have hst : ∀ x y, (solveW w).next_node x = some y → stageOf x < stageOf y :=
    stage_next w
  obtain ⟨l, hl, hsum⟩ := detail_sum w 4 A cV (by decide) hcV
  have hl5 : detailsGo (edgesW w) (walk (solveW w).next_node 5 A) = some l := hl
  have hrec : reconstruct_path (solveW w).next_node = walk (solveW w).next_node 5 A := by
    have h0 : reconstruct_path (solveW w).next_node = walk (solveW w).next_node 11 A := rfl
    rw [h0]
    exact (walk_add (solveW w).next_node hst 6 5 A (by decide)).symm
  have hpath : (solve_backward_induction (edgesW w)).2 = walk (solveW w).next_node 5 A := by
    have h0 : (solve_backward_induction (edgesW w)).2
        = reconstruct_path (solveW w).next_node := rfl
    rw [h0, hrec]
  constructor
  · rw [hpath]
    exact detailsGo_consec (edgesW w) _ l hl5
  · rw [get_path_details, hrec, hl5]
    have h1 : (solve_backward_induction (edgesW w)).1 = (solveW w).cost_to_go A := rfl
    rw [h1, hcV, Option.map_some', hsum]

/-- C5: the cost-propagation comparison is strict `<`: processing a node's
neighbor list yields, when any candidate improves on the stored cost, the
minimum candidate together with the FIRST neighbor in enumeration order
achieving it (`firstAchiever`); and an edge whose candidate cost equals the
node's current stored cost leaves both tables exactly as the remaining edges
alone would (no overwrite on ties). -/
theorem claim_C5 (t : Tables) (u : Node) (l : List (Node × Int))
    (hself : ∀ vw ∈ l, vw.1 ≠ u) :
    (((relaxNode u l t).cost_to_go u, (relaxNode u l t).next_node u)
        = if ltC (minCand t.cost_to_go l) (t.cost_to_go u) then
            (minCand t.cost_to_go l,
             firstAchiever t.cost_to_go l (minCand t.cost_to_go l))
          else (t.cost_to_go u, t.next_node u)) ∧
    ∀ v wv, addC wv (t.cost_to_go v) = t.cost_to_go u →
      relaxNode u ((v, wv) :: l) t = relaxNode u l t := by
  constructor
  · rw [relaxNode_self u l t hself, accFold_char]
  · intro v wv he
    rw [relaxNode, he, ltC_irrefl]
    simp

/-- C5 witness: relaxing `A` over two tied candidates of cost `1` keeps the
first edge (`B`). -/
theorem claim_C5_witness :
    (relaxNode A [(B, 1), (C, 1)]
        ⟨fun n => if n = A then none else some 0, fun _ => none⟩).next_node A
      = some B := by
  have h := claim_C5 ⟨fun n => if n = A then none else some 0, fun _ => none⟩
    A [(B, 1), (C, 1)] (by decide)
  have h2 := congrArg Prod.snd h.1
  exact h2.trans (by decide)

/-- C6 (counterexample): calling `get_path_details` before any solve does not
signal an error: with the empty `next_node` dict of `__init__` it returns
normally, with the empty details list. -/
theorem claim_C6_counterexample : get_path_details init_edges init_next = some [] := by
  decide

/-- C6 (amended): before any solve the reconstructed path is just `[A]` and
`get_path_details` returns the empty list, with no error signaled. -/
theorem claim_C6 :
    reconstruct_path init_next = [A] ∧
    get_path_details default_edges init_next = some [] := by
  constructor <;> decide

/-- C10: path reconstruction terminates on every table the solver produces:
each recorded link climbs to a strictly later stage, so the walk from `A` is
insensitive to fuel beyond `5` and `_reconstruct_path` (fuel `11`) returns
the same finite node sequence as fuel `5`. -/
theorem claim_C10 (w : Node → Node → Int) :
    (all_nodes.all fun u =>
        match (solveW w).next_node u with
        | none => true
        | some v => decide (stageOf u < stageOf v)) = true ∧
    (∀ k : ℕ, walk (solveW w).next_node (5 + k) A = walk (solveW w).next_node 5 A) ∧
    reconstruct_path (solveW w).next_node = walk (solveW w).next_node 5 A := by
  have hst : ∀ x y, (solveW w).next_node x = some y → stageOf x < stageOf y :=
    stage_next w
  refine ⟨?_, ?_, ?_⟩
  · rw [List.all_eq_true]
    intro u _
    cases hn : (solveW w).next_node u with
    | none => rfl
    | some v => simpa using hst u v hn
  · intro k
    exact (walk_add (solveW w).next_node hst k 5 A (by decide)).symm
  · have h0 : reconstruct_path (solveW w).next_node
        = walk (solveW w).next_node 11 A := rfl
    rw [h0]
    exact (walk_add (solveW w).next_node hst 6 5 A (by decide)).symm

/-- C7: `set_random_weights` errors exactly when `min > max` (the
`random.randint` ValueError), with the edges untouched; otherwise it
overwrites every edge weight with the successive samples (in-range samples
give in-range weights) and leaves the topology unchanged. -/
theorem claim_C7 (minV maxV : Int) (rand : ℕ → Int) (w : Node → Node → Int) :
    (set_random_weights minV maxV rand (edgesW w)
        = if maxV < minV then Except.error (edgesW w)
          else Except.ok (srwSample rand)) ∧
    (∀ u v, (lookup2 (srwSample rand) u v).isSome
        = (lookup2 (edgesW w) u v).isSome) ∧
    ((∀ k, minV ≤ rand k ∧ rand k ≤ maxV) →
      ∀ u v x, lookup2 (srwSample rand) u v = some x → minV ≤ x ∧ x ≤ maxV) := by
  refine ⟨?_, ?_, ?_⟩
  · by_cases h : maxV < minV
    · rw [if_pos h]
      simp [set_random_weights, srwNodes, srwAdj, randint, h, edgesW]
    · rw [if_neg h]
      simp [set_random_weights, srwNodes, srwAdj, randint, h, edgesW, srwSample]
  · intro u v
    cases u <;> cases v <;> rfl
  · intro h u v x hx
    cases u <;> cases v <;>
      simp [lookup2, lookupN, dictGet, srwSample] at hx <;>
      subst hx <;> exact h _

/-- C7 witness: with `min = 0 ≤ max = 1` and the constant sample `0`, the
call succeeds and every resulting weight lies in the range. -/
theorem claim_C7_witness :
    set_random_weights 0 1 (fun _ => 0) (edgesW defaultW)
      = Except.ok (srwSample (fun _ => 0)) ∧
    (∀ u v x, lookup2 (srwSample (fun _ => 0)) u v = some x →
      (0 : Int) ≤ x ∧ x ≤ 1) := by
  have h := claim_C7 0 1 (fun _ => 0) defaultW
  constructor
  · have h1 := h.1
    rw [if_neg (by norm_num)] at h1
    exact h1
  · exact h.2.2 (fun k => by norm_num)

/-- First-occurrence lookup through a per-key value update: the entry under
`f` is mapped by `g`, every other key is untouched. -/
theorem lookupN_mapUpd {α : Type} (g : α → α) (f k : Node) :
    ∀ l : List (Node × α),
      lookupN k (l.map (fun p => if p.1 = f then (p.1, g p.2) else p))
        = if k = f then (lookupN k l).map g else lookupN k l := by
  intro l
  induction l with
  | nil => simp [lookupN]
  | cons p rest ih =>
    have hpair : (if p.1 = f then (p.1, g p.2) else p)
        = (p.1, if p.1 = f then g p.2 else p.2) := by
      split_ifs <;> simp
    rw [List.map_cons, hpair, lookupN, ih]
    by_cases hpk : p.1 = k
    · rw [if_pos hpk]
      by_cases hkf : k = f
      · rw [if_pos (hpk.trans hkf), if_pos hkf, lookupN, if_pos hpk, Option.map_some']
      · rw [if_neg (fun h => hkf (hpk.symm.trans h)), if_neg hkf, lookupN, if_pos hpk]
    · rw [if_neg hpk, lookupN, if_neg hpk]

/-- Every node label is a key of the fixed-topology dict. -/
theorem key_isSome (w : Node → Node → Int) (f : Node) :
    (lookupN f (edgesW w)).isSome = true := by
  cases f <;> rfl

/-- C8: `set_edge_weight` on a pair absent from the topology is a no-op
(first conjunct); in general the updated dict stores `x` at `(f, t)` when
that edge exists and leaves every other lookup — hence the set of edges —
unchanged (second conjunct). -/
theorem claim_C8 (w : Node → Node → Int) (f t : Node) (x : Int) :
    (lookup2 (edgesW w) f t = none → set_edge_weight (edgesW w) f t x = edgesW w) ∧
    (∀ u v, lookup2 (set_edge_weight (edgesW w) f t x) u v
        = if u = f ∧ v = t ∧ (lookup2 (edgesW w) f t).isSome = true then some x
          else lookup2 (edgesW w) u v) := by
  constructor
  · intro hnone
    rw [set_edge_weight, if_neg]
    simp [hnone]
  · intro u v
    by_cases hcond : (lookupN f (edgesW w)).isSome ∧ (lookup2 (edgesW w) f t).isSome
    · rw [set_edge_weight, if_pos hcond]
      rw [lookup2, dictGet, lookupN_mapUpd]
      by_cases huf : u = f
      · subst huf
        rw [if_pos rfl]
        rcases hadj : lookupN u (edgesW w) with _ | adj
        · rw [hadj] at hcond
          simp at hcond
        · rw [Option.map_some', Option.getD_some]
          rw [lookupN_mapUpd (fun _ => x) t v adj]
          have hl2 : lookup2 (edgesW w) u t = lookupN t adj := by
            rw [lookup2, dictGet, hadj, Option.getD_some]
          by_cases hvt : v = t
          · subst hvt
            rw [if_pos rfl]
            rcases hwt : lookupN v adj with _ | y
            · rw [← hl2] at hwt
              rw [hwt] at hcond
              simp at hcond
            · rw [Option.map_some']
              rw [if_pos ⟨rfl, rfl, by rw [hl2, hwt]; rfl⟩]
          · rw [if_neg hvt, if_neg (fun hc => hvt hc.2.1)]
            rw [lookup2, dictGet, hadj, Option.getD_some]
      · rw [if_neg huf, if_neg (fun hc => huf hc.1)]
        rw [lookup2, dictGet]
    · rw [set_edge_weight, if_neg hcond]
      have hks := key_isSome w f
      have hnot : ¬ (lookup2 (edgesW w) f t).isSome = true := by
        intro hi
        exact hcond ⟨by rw [hks], hi⟩
      rw [if_neg (fun hc => hnot hc.2.2)]

/-- C8 witness: setting the absent pair `(A, J)` is a no-op; setting the
present pair `(A, B)` stores the weight. -/
theorem claim_C8_witness :
    set_edge_weight (edgesW defaultW) A J 99 = edgesW defaultW ∧
    lookup2 (set_edge_weight (edgesW defaultW) A B 7) A B = some 7 := by
  constructor
  · exact (claim_C8 defaultW A J 99).1 (by decide)
  · have h := (claim_C8 defaultW A B 7).2 A B
    rw [h, if_pos ⟨rfl, rfl, by decide⟩]

/-- C9: for every `min ≤ max`, a successful `set_random_weights` followed by
`reset_to_default` restores the constructor's baseline: the result equals the
freshly constructed instance's edges, which equal `default_edges`. -/
theorem claim_C9 (minV maxV : Int) (rand : ℕ → Int) (w : Node → Node → Int)
    (es2 : Edges) (hle : minV ≤ maxV)
    (hok : set_random_weights minV maxV rand (edgesW w) = Except.ok es2) :
    reset_to_default es2 = init_edges ∧ init_edges = default_edges :=
  ⟨rfl, by decide⟩

/-- C9 witness at `min = max = 0` with the constant sample `0`. -/
theorem claim_C9_witness :
    reset_to_default (srwSample (fun _ => 0)) = init_edges ∧
    init_edges = default_edges :=
  claim_C9 0 0 (fun _ => 0) defaultW (srwSample (fun _ => 0)) (le_refl 0) (by rfl)

end Stagecoach
